import Mathlib

/-!
Verification of the `intrinsic_persistent_homology` notebook
(`examples/intrinsic_persistent_homology.ipynb`).

The notebook's own algorithmic content is the sampler `generate_noise` /
`trefoil` and the wrapper `compute_fermat_distance`.  The wrapper delegates
to the external `fermat` library (`Fermat(alpha = p, path_method='D', k = k)`,
Dijkstra on the k-nearest-neighbor graph with edge weights `E(i,j)^p`), whose
sources are not part of this repository; those parts are modelled from the
spec, as indicated in the doc comments below.  Distances are real numbers;
matrices of shortest-path distances live in `ℝ≥0∞`, whose `⊤` is the
"unreachable" (infinite-distance) sentinel produced by Dijkstra on a
disconnected graph.
-/

open scoped ENNReal

/- ================= Walks and shortest-path distances ================= -/

/-- Last vertex of the walk that starts at `i` and then visits the vertices
of `vs` in order (`i` itself when `vs = []`). -/
def walkEnd {n : ℕ} (i : Fin n) (vs : List (Fin n)) : Fin n :=
  vs.getLast?.getD i

/-- Cost of the walk starting at `i` and visiting `vs`: the sum of the
`W`-weights of its consecutive steps. -/
noncomputable def chainCost {n : ℕ} (W : Fin n → Fin n → ℝ≥0∞) :
    Fin n → List (Fin n) → ℝ≥0∞
  | _, [] => 0
  | i, v :: vs => W i v + chainCost W v vs

/-- Sum of the `W`-weights of the consecutive pairs of a vertex list. -/
noncomputable def pairCost {n : ℕ} (W : Fin n → Fin n → ℝ≥0∞) :
    List (Fin n) → ℝ≥0∞
  | [] => 0
  | [_] => 0
  | a :: b :: l => W a b + pairCost W (b :: l)

/-- Modelled from the spec: all-pairs shortest-path distance of the weighted
graph `W` (spec §4.2 step 3): `F(i,j)` is the infimum, over all finite paths
between `i` and `j`, of the sum of edge weights along the path; `⊤` is the
"unreachable" sentinel.  The external `fermat` library's Dijkstra
(`Fermat.fit` / `Fermat.get_distances`) is not in this repository's sources. -/
noncomputable def spDist {n : ℕ} (W : Fin n → Fin n → ℝ≥0∞) (i j : Fin n) : ℝ≥0∞ :=
  ⨅ vs : {l : List (Fin n) // walkEnd i l = j}, chainCost W i vs.1

/- ================= Euclidean distances ================= -/

/-- Squared Euclidean distance between two points of `ℝ³`. -/
def sqDist (x y : Fin 3 → ℝ) : ℝ := ∑ c, (x c - y c) ^ 2

/-- Euclidean distance between two points of `ℝ³`; this is what each entry of
`scipy.spatial.distance_matrix(data, data)` is. -/
noncomputable def euclidDist (x y : Fin 3 → ℝ) : ℝ := Real.sqrt (sqDist x y)

/-- The pairwise Euclidean distance matrix of a point cloud
(`distance_matrix(data, data)` in `compute_fermat_distance`). -/
noncomputable def euclidMatrix {n : ℕ} (pts : Fin n → Fin 3 → ℝ) :
    Fin n → Fin n → ℝ :=
  fun i j => euclidDist (pts i) (pts j)

/-- The same three-coordinate point viewed in `EuclideanSpace ℝ (Fin 3)`,
used to import the metric-space facts about the Euclidean distance. -/
def toE (x : Fin 3 → ℝ) : EuclideanSpace ℝ (Fin 3) := x

/- ================= The k-nearest-neighbor graph ================= -/

open Classical in
/-- Number of points strictly nearer to `i` (in the base matrix `E`) than
`j` is, `i` itself not counted. -/
noncomputable def nearerCount {n : ℕ} (E : Fin n → Fin n → ℝ) (i j : Fin n) : ℕ :=
  (Finset.univ.filter fun l => l ≠ i ∧ E i l < E i j).card

/-- Modelled from the spec: `j` is one of the `k` nearest neighbors of `i`
when fewer than `k` other points are strictly nearer to `i` than `j` is
(ties are included, as in a nearest-neighbor query). -/
def isKNearest {n : ℕ} (E : Fin n → Fin n → ℝ) (k : ℕ) (i j : Fin n) : Prop :=
  j ≠ i ∧ nearerCount E i j < k

/-- Modelled from the spec (§4.2 step 2, symmetrization policy): the graph has
an edge between `i` and `j` iff either endpoint lists the other among its `k`
nearest neighbors. -/
def adjacent {n : ℕ} (E : Fin n → Fin n → ℝ) (k : ℕ) (i j : Fin n) : Prop :=
  isKNearest E k i j ∨ isKNearest E k j i

/-- Connectivity of the k-nearest-neighbor graph: `j` is reachable from `i`
through a chain of edges. -/
def reachable {n : ℕ} (E : Fin n → Fin n → ℝ) (k : ℕ) (i j : Fin n) : Prop :=
  Relation.ReflTransGen (adjacent E k) i j

open Classical in
/-- Modelled from the spec (§4.2 step 2): the weight of the edge `{i, j}` of
the k-nearest-neighbor graph is `E(i,j)^p` (real exponent); non-edges have
weight `⊤`. -/
noncomputable def fermatWeight {n : ℕ} (E : Fin n → Fin n → ℝ) (p : ℝ) (k : ℕ)
    (i j : Fin n) : ℝ≥0∞ :=
  if adjacent E k i j then ENNReal.ofReal (E i j ^ p) else ⊤

/-- Modelled from the spec: the notebook's `compute_fermat_distance(data, p, k)`.
It computes the pairwise Euclidean distance matrix (step 1), builds the
k-nearest-neighbor graph with edge weights `E(i,j)^p` (step 2), and returns
the all-pairs shortest-path distances (step 3, the library's Dijkstra).
The external `fermat` library is not part of this repository's sources; the
wrapper itself performs no parameter validation. -/
noncomputable def computeFermatDistance {n : ℕ} (pts : Fin n → Fin 3 → ℝ)
    (p : ℝ) (k : ℕ) : Fin n → Fin n → ℝ≥0∞ :=
  spDist (fermatWeight (euclidMatrix pts) p k)

open Classical in
/-- Written from the spec's words, as the refinement target of the claims
about `p = 1`: the geodesic (all-pairs shortest-path) distance matrix of the
k-nearest-neighbor graph on the point cloud, with plain Euclidean edge
weights. -/
noncomputable def knnGeodesicMatrix {n : ℕ} (pts : Fin n → Fin 3 → ℝ) (k : ℕ) :
    Fin n → Fin n → ℝ≥0∞ :=
  spDist (fun i j =>
    if adjacent (euclidMatrix pts) k i j
    then ENNReal.ofReal (euclidMatrix pts i j) else ⊤)

/- ================= The sampler ================= -/

/-- Modelled from the spec: numpy's global pseudo-random state.  A seeded run
fixes the two standard draw streams (standard normal, and uniform on `[-1,1]`)
and starts reading them at position `0`; every draw advances the position, so
consecutive unseeded calls read disjoint parts of the streams.  The numpy
random generator is not part of this repository's sources. -/
structure RandomState where
  normalStream : ℕ → ℝ
  uniformStream : ℕ → ℝ
  pos : ℕ

/-- Advance the random state by `m` consumed draws. -/
def advance (s : RandomState) (m : ℕ) : RandomState :=
  { s with pos := s.pos + m }

/-- The draw stream that the noise kind `t` reads from. -/
def streamOf (s : RandomState) (t : String) : ℕ → ℝ :=
  if t = "normal" then s.normalStream else s.uniformStream

/-- The notebook's `generate_noise(type_noise, var, n)`.
`np.random.normal(0, var, n)` is modelled as `var` times the next `n` draws
of the standard normal stream, and `np.random.uniform(-var, var, n)` as `var`
times the next `n` draws of the uniform stream on `[-1,1]` (modelled from the
spec: the numpy distributions themselves are library code).  For any other
`type_noise` the Python function falls through both `if`s and implicitly
returns `None` — it raises no error — which is modelled by `none`. -/
noncomputable def generate_noise (s : RandomState) (type_noise : String)
    (var : ℝ) (m : ℕ) : Option ((Fin m → ℝ) × RandomState) :=
  if type_noise = "normal" then
    some (fun a => var * s.normalStream (s.pos + a), advance s m)
  else if type_noise = "uniform" then
    some (fun a => var * s.uniformStream (s.pos + a), advance s m)
  else
    none

/-- The parameter grid `phi = np.linspace(0, 2*np.pi, n)`: `n` evenly spaced
values from `0` to `2π`, both endpoints included (`[0]` when `n = 1`). -/
noncomputable def phi (n : ℕ) (i : Fin n) : ℝ :=
  if n ≤ 1 then 0 else 2 * Real.pi * ((i : ℕ) : ℝ) / ((n : ℝ) - 1)

/-- First coordinate of the trefoil parametrization: `sin φ + 2 sin 2φ`. -/
noncomputable def trefoilX (t : ℝ) : ℝ := Real.sin t + 2 * Real.sin (2 * t)

/-- Second coordinate of the trefoil parametrization: `cos φ - 2 cos 2φ`. -/
noncomputable def trefoilY (t : ℝ) : ℝ := Real.cos t - 2 * Real.cos (2 * t)

/-- Third coordinate of the trefoil parametrization: `-sin 3φ`. -/
noncomputable def trefoilZ (t : ℝ) : ℝ := -Real.sin (3 * t)

/-- The notebook's `trefoil(n, type_noise, var)`: an `n × 3` array whose row
`i` is the trefoil-curve point at `phi i`, each coordinate perturbed by its
own noise draw.  The three `generate_noise` calls are evaluated in the order
`X`, `Y`, `Z`, so they consume three consecutive blocks of `n` draws.  When
`generate_noise` yields `None` (unsupported noise kind) the Python additions
would fail, so the whole call is modelled as `none`. -/
noncomputable def trefoil (s : RandomState) (n : ℕ) (type_noise : String)
    (var : ℝ) : Option ((Fin n → Fin 3 → ℝ) × RandomState) :=
  match generate_noise s type_noise var n with
  | none => none
  | some (nX, s1) =>
    match generate_noise s1 type_noise var n with
    | none => none
    | some (nY, s2) =>
      match generate_noise s2 type_noise var n with
      | none => none
      | some (nZ, s3) =>
        some (fun i => ![trefoilX (phi n i) + nX i, trefoilY (phi n i) + nY i,
          trefoilZ (phi n i) + nZ i], s3)

/- ================= Concrete point clouds for the checks ================= -/

/-- A point on the first coordinate axis of `ℝ³`. -/
noncomputable def axisPt (a : ℝ) : Fin 3 → ℝ := ![a, 0, 0]

/-- Two points at Euclidean distance `1/2`. -/
noncomputable def cloudHalf : Fin 2 → Fin 3 → ℝ :=
  fun i => axisPt (if i = 0 then 0 else 1 / 2)

/-- Two points at Euclidean distance `3`. -/
noncomputable def cloudB : Fin 2 → Fin 3 → ℝ :=
  fun i => axisPt (if i = 0 then 0 else 3)

/-- Four collinear points forming two far-apart pairs; with `k = 1` the
nearest-neighbor graph has exactly the edges `{0,1}` and `{2,3}` and is
disconnected. -/
noncomputable def cloudDisc : Fin 4 → Fin 3 → ℝ :=
  fun i => axisPt (![0, 1, 10, 11] i)

/- ================= Walk lemmas ================= -/

theorem walkEnd_nil {n : ℕ} (i : Fin n) : walkEnd i [] = i := rfl

theorem walkEnd_getLast? {n : ℕ} (i : Fin n) (vs : List (Fin n)) :
    (i :: vs).getLast? = some (walkEnd i vs) := by
  induction vs generalizing i with
  | nil => rfl
  | cons v ws ih =>
    rw [List.getLast?_cons_cons, ih v]
    congr 1
    show walkEnd v ws = walkEnd i (v :: ws)
    unfold walkEnd
    rw [ih v]
    rfl

theorem walkEnd_cons {n : ℕ} (i v : Fin n) (vs : List (Fin n)) :
    walkEnd i (v :: vs) = walkEnd v vs := by
  show ((v :: vs).getLast?).getD i = walkEnd v vs
  rw [walkEnd_getLast? v vs]
  rfl

theorem walkEnd_append {n : ℕ} (i : Fin n) (us vs : List (Fin n)) :
    walkEnd i (us ++ vs) = walkEnd (walkEnd i us) vs := by
  induction us generalizing i with
  | nil => rfl
  | cons u us ih => rw [List.cons_append, walkEnd_cons, walkEnd_cons, ih]

theorem chainCost_append {n : ℕ} (W : Fin n → Fin n → ℝ≥0∞) (i : Fin n)
    (us vs : List (Fin n)) :
    chainCost W i (us ++ vs) = chainCost W i us + chainCost W (walkEnd i us) vs := by
  induction us generalizing i with
  | nil => simp [chainCost, walkEnd_nil]
  | cons u us ih =>
    rw [List.cons_append]
    show W i u + chainCost W u (us ++ vs) = W i u + chainCost W u us + _
    rw [ih, walkEnd_cons, add_assoc]

theorem chainCost_eq_pairCost {n : ℕ} (W : Fin n → Fin n → ℝ≥0∞) (i : Fin n)
    (vs : List (Fin n)) : chainCost W i vs = pairCost W (i :: vs) := by
  induction vs generalizing i with
  | nil => rfl
  | cons v ws ih =>
    show W i v + chainCost W v ws = pairCost W (i :: v :: ws)
    rw [ih]
    rfl

theorem pairCost_append_last {n : ℕ} (W : Fin n → Fin n → ℝ≥0∞) :
    ∀ (xs : List (Fin n)) (x a : Fin n),
      pairCost W ((x :: xs) ++ [a]) = pairCost W (x :: xs) + W (walkEnd x xs) a := by
  intro xs
  induction xs with
  | nil =>
    intro x a
    show W x a + pairCost W [a] = pairCost W [x] + W (walkEnd x []) a
    simp [pairCost, walkEnd_nil]
  | cons y ys ih =>
    intro x a
    show W x y + pairCost W ((y :: ys) ++ [a]) = pairCost W (x :: y :: ys) + _
    rw [ih y a, walkEnd_cons]
    show W x y + (pairCost W (y :: ys) + W (walkEnd y ys) a)
      = W x y + pairCost W (y :: ys) + W (walkEnd y ys) a
    rw [add_assoc]

theorem pairCost_reverse {n : ℕ} (W : Fin n → Fin n → ℝ≥0∞)
    (hsym : ∀ a b, W a b = W b a) :
    ∀ l : List (Fin n), pairCost W l.reverse = pairCost W l := by
  intro l
  induction l with
  | nil => rfl
  | cons a rest ih =>
    cases rest with
    | nil => rfl
    | cons b bs =>
      have hrev : (b :: bs).reverse ≠ [] := by simp
      obtain ⟨c, cs, hccs⟩ := List.exists_cons_of_ne_nil hrev
      have hgl : (c :: cs).getLast? = some b := by
        rw [← hccs, List.getLast?_reverse]
        rfl
      have hwe : walkEnd c cs = b :=
        Option.some.inj ((walkEnd_getLast? c cs).symm.trans hgl)
      have hstep : (a :: b :: bs).reverse = (c :: cs) ++ [a] := by
        rw [List.reverse_cons, hccs]
      rw [hstep, pairCost_append_last W cs c a, hwe, ← hccs, ih]
      show pairCost W (b :: bs) + W b a = W a b + pairCost W (b :: bs)
      rw [hsym b a, add_comm]

theorem chainCost_reverse {n : ℕ} (W : Fin n → Fin n → ℝ≥0∞)
    (hsym : ∀ a b, W a b = W b a) (i j : Fin n) (vs : List (Fin n))
    (hend : walkEnd i vs = j) :
    ∃ us : List (Fin n), walkEnd j us = i ∧ chainCost W j us = chainCost W i vs := by
  have hne : (i :: vs).reverse ≠ [] := by simp
  obtain ⟨c, cs, hccs⟩ := List.exists_cons_of_ne_nil hne
  have hc : c = j := by
    have h1 : (c :: cs).head? = some c := rfl
    rw [← hccs, List.head?_reverse, walkEnd_getLast? i vs, hend] at h1
    exact (Option.some.inj h1).symm
  subst hc
  refine ⟨cs, ?_, ?_⟩
  · have h2 : (c :: cs).getLast? = some i := by
      rw [← hccs, List.getLast?_reverse]
      rfl
    exact Option.some.inj ((walkEnd_getLast? c cs).symm.trans h2)
  · rw [chainCost_eq_pairCost, chainCost_eq_pairCost, ← hccs,
      pairCost_reverse W hsym (i :: vs)]

/- ================= Shortest-path distance lemmas ================= -/

theorem spDist_le_chainCost {n : ℕ} (W : Fin n → Fin n → ℝ≥0∞) (i j : Fin n)
    (vs : List (Fin n)) (h : walkEnd i vs = j) :
    spDist W i j ≤ chainCost W i vs :=
  iInf_le (fun v : {l : List (Fin n) // walkEnd i l = j} => chainCost W i v.1)
    ⟨vs, h⟩

theorem le_spDist {n : ℕ} (W : Fin n → Fin n → ℝ≥0∞) (i j : Fin n) (c : ℝ≥0∞)
    (h : ∀ vs : List (Fin n), walkEnd i vs = j → c ≤ chainCost W i vs) :
    c ≤ spDist W i j :=
  le_iInf fun v => h v.1 v.2

theorem spDist_self {n : ℕ} (W : Fin n → Fin n → ℝ≥0∞) (i : Fin n) :
    spDist W i i = 0 :=
  le_antisymm (spDist_le_chainCost W i i [] rfl) (zero_le _)

theorem spDist_symm {n : ℕ} (W : Fin n → Fin n → ℝ≥0∞)
    (hsym : ∀ a b, W a b = W b a) (i j : Fin n) :
    spDist W i j = spDist W j i := by
  have key : ∀ a b : Fin n, spDist W a b ≤ spDist W b a := by
    intro a b
    have step : ∀ v : {l : List (Fin n) // walkEnd b l = a},
        spDist W a b ≤ chainCost W b v.1 := by
      intro v
      obtain ⟨us, hend, hcost⟩ := chainCost_reverse W hsym b a v.1 v.2
      rw [← hcost]
      exact spDist_le_chainCost W a b us hend
    exact le_iInf step
  exact le_antisymm (key i j) (key j i)

theorem spDist_triangle {n : ℕ} (W : Fin n → Fin n → ℝ≥0∞) (i l j : Fin n) :
    spDist W i j ≤ spDist W i l + spDist W l j := by
  have key : ∀ (u : {m : List (Fin n) // walkEnd i m = l})
      (w : {m : List (Fin n) // walkEnd l m = j}),
      spDist W i j ≤ chainCost W i u.1 + chainCost W l w.1 := by
    intro u w
    have hend : walkEnd i (u.1 ++ w.1) = j := by rw [walkEnd_append, u.2, w.2]
    have h := spDist_le_chainCost W i j (u.1 ++ w.1) hend
    rwa [chainCost_append, u.2] at h
  have step : ∀ u : {m : List (Fin n) // walkEnd i m = l},
      spDist W i j ≤ chainCost W i u.1 + spDist W l j := by
    intro u
    show spDist W i j ≤ chainCost W i u.1
      + ⨅ w : {m : List (Fin n) // walkEnd l m = j}, chainCost W l w.1
    rw [ENNReal.add_iInf]
    exact le_iInf (key u)
  show spDist W i j
    ≤ (⨅ u : {m : List (Fin n) // walkEnd i m = l}, chainCost W i u.1) + spDist W l j
  rw [ENNReal.iInf_add]
  exact le_iInf step

theorem chainCost_mono {n : ℕ} (W W' : Fin n → Fin n → ℝ≥0∞)
    (h : ∀ a b, W a b ≤ W' a b) :
    ∀ (vs : List (Fin n)) (i : Fin n), chainCost W i vs ≤ chainCost W' i vs := by
  intro vs
  induction vs with
  | nil => intro i; exact le_rfl
  | cons v ws ih => intro i; exact add_le_add (h i v) (ih v)

theorem spDist_mono {n : ℕ} (W W' : Fin n → Fin n → ℝ≥0∞)
    (h : ∀ a b, W a b ≤ W' a b) (i j : Fin n) :
    spDist W i j ≤ spDist W' i j :=
  le_iInf fun v =>
    (spDist_le_chainCost W i j v.1 v.2).trans (chainCost_mono W W' h v.1 i)

/- ================= Euclidean metric lemmas ================= -/

theorem euclidDist_eq_dist (x y : Fin 3 → ℝ) :
    euclidDist x y = dist (toE x) (toE y) := by
  rw [EuclideanSpace.dist_eq]
  unfold euclidDist sqDist
  congr 1
  refine Finset.sum_congr rfl fun c _ => ?_
  rw [Real.dist_eq, sq_abs]
  rfl

theorem euclidDist_nonneg (x y : Fin 3 → ℝ) : 0 ≤ euclidDist x y :=
  Real.sqrt_nonneg _

theorem euclidDist_self (x : Fin 3 → ℝ) : euclidDist x x = 0 := by
  unfold euclidDist sqDist
  simp

theorem euclidDist_comm (x y : Fin 3 → ℝ) : euclidDist x y = euclidDist y x := by
  unfold euclidDist sqDist
  congr 1
  refine Finset.sum_congr rfl fun c _ => ?_
  ring

theorem euclidDist_triangle (x y z : Fin 3 → ℝ) :
    euclidDist x z ≤ euclidDist x y + euclidDist y z := by
  rw [euclidDist_eq_dist, euclidDist_eq_dist, euclidDist_eq_dist]
  exact dist_triangle (toE x) (toE y) (toE z)

theorem euclidMatrix_symm {n : ℕ} (pts : Fin n → Fin 3 → ℝ) (i j : Fin n) :
    euclidMatrix pts i j = euclidMatrix pts j i :=
  euclidDist_comm (pts i) (pts j)

theorem euclidMatrix_self {n : ℕ} (pts : Fin n → Fin 3 → ℝ) (i : Fin n) :
    euclidMatrix pts i i = 0 :=
  euclidDist_self (pts i)

theorem euclidMatrix_triangle {n : ℕ} (pts : Fin n → Fin 3 → ℝ) (i l j : Fin n) :
    euclidMatrix pts i j ≤ euclidMatrix pts i l + euclidMatrix pts l j :=
  euclidDist_triangle (pts i) (pts l) (pts j)

/- ================= Adjacency lemmas ================= -/

theorem adjacent_irrefl {n : ℕ} (E : Fin n → Fin n → ℝ) (k : ℕ) (a : Fin n) :
    ¬ adjacent E k a a := by
  rintro (h | h) <;> exact h.1 rfl

theorem adjacent_symm {n : ℕ} (E : Fin n → Fin n → ℝ) (k : ℕ) (a b : Fin n) :
    adjacent E k a b ↔ adjacent E k b a :=
  or_comm

theorem nearerCount_le {n : ℕ} (E : Fin n → Fin n → ℝ) (i j : Fin n)
    (hij : i ≠ j) : nearerCount E i j ≤ n - 2 := by
  classical
  unfold nearerCount
  have hsub : (Finset.univ.filter fun l => l ≠ i ∧ E i l < E i j)
      ⊆ Finset.univ \ {i, j} := by
    intro l hl
    rw [Finset.mem_filter] at hl
    rw [Finset.mem_sdiff]
    refine ⟨Finset.mem_univ l, ?_⟩
    rw [Finset.mem_insert, Finset.mem_singleton]
    push_neg
    refine ⟨hl.2.1, ?_⟩
    rintro rfl
    exact lt_irrefl _ hl.2.2
  calc (Finset.univ.filter fun l => l ≠ i ∧ E i l < E i j).card
      ≤ (Finset.univ \ ({i, j} : Finset (Fin n))).card := Finset.card_le_card hsub
  _ = n - 2 := by
      rw [Finset.card_sdiff (Finset.subset_univ _), Finset.card_univ, Fintype.card_fin,
        Finset.card_insert_of_not_mem (by simpa using hij), Finset.card_singleton]

theorem adjacent_unrestricted {n : ℕ} (E : Fin n → Fin n → ℝ) (i j : Fin n)
    (hij : i ≠ j) : adjacent E (n - 1) i j := by
  have hn : 2 ≤ n := by
    have h1 : 1 < Fintype.card (Fin n) :=
      Fintype.one_lt_card_iff_nontrivial.mpr ⟨⟨i, j, hij⟩⟩
    rw [Fintype.card_fin] at h1
    omega
  have hc := nearerCount_le E i j hij
  exact Or.inl ⟨hij.symm, by omega⟩

theorem nearerCount_two (E : Fin 2 → Fin 2 → ℝ) (i j : Fin 2) (hij : i ≠ j) :
    nearerCount E i j = 0 := by
  classical
  unfold nearerCount
  rw [Finset.card_eq_zero, Finset.filter_eq_empty_iff]
  intro l _
  rintro ⟨hli, hlt⟩
  have hlj : l = j := by
    have h1 : l.val ≠ i.val := fun h => hli (Fin.ext h)
    have h2 : i.val ≠ j.val := fun h => hij (Fin.ext h)
    have hl2 := l.isLt
    have hi2 := i.isLt
    have hj2 := j.isLt
    exact Fin.ext (by omega)
  subst hlj
  exact lt_irrefl _ hlt

theorem adjacent_two (E : Fin 2 → Fin 2 → ℝ) (k : ℕ) (hk : 1 ≤ k) (i j : Fin 2)
    (hij : i ≠ j) : adjacent E k i j :=
  Or.inl ⟨hij.symm, by rw [nearerCount_two E i j hij]; omega⟩

theorem spDist_two (W : Fin 2 → Fin 2 → ℝ≥0∞) (h00 : W 0 0 = ⊤) :
    spDist W 0 1 = W 0 1 := by
  refine le_antisymm ?_ ?_
  · have h := spDist_le_chainCost W 0 1 [1] rfl
    simpa [chainCost] using h
  · refine le_spDist W 0 1 (W 0 1) ?_
    intro vs hend
    cases vs with
    | nil => exact absurd hend (by decide)
    | cons v rest =>
      show W 0 1 ≤ W 0 v + chainCost W v rest
      rcases eq_or_ne v 0 with rfl | hv
      · rw [h00, top_add]
        exact le_top
      · have hv1 : v = 1 := by
          have ha := v.isLt
          have hb : v.val ≠ 0 := fun h => hv (Fin.ext h)
          exact Fin.ext (by omega)
        subst hv1
        exact le_self_add

/- ================= Fermat weight lemmas ================= -/

theorem fermatWeight_symm {n : ℕ} (E : Fin n → Fin n → ℝ)
    (hE : ∀ a b, E a b = E b a) (p : ℝ) (k : ℕ) (a b : Fin n) :
    fermatWeight E p k a b = fermatWeight E p k b a := by
  classical
  unfold fermatWeight
  rw [hE a b]
  exact if_congr (adjacent_symm E k a b) rfl rfl

theorem fermatWeight_self {n : ℕ} (E : Fin n → Fin n → ℝ) (p : ℝ) (k : ℕ)
    (a : Fin n) : fermatWeight E p k a a = ⊤ := by
  unfold fermatWeight
  rw [if_neg (adjacent_irrefl E k a)]

theorem fermatWeight_two (E : Fin 2 → Fin 2 → ℝ) (p : ℝ) (k : ℕ) (hk : 1 ≤ k) :
    fermatWeight E p k 0 1 = ENNReal.ofReal (E 0 1 ^ p) := by
  unfold fermatWeight
  rw [if_pos (adjacent_two E k hk 0 1 (by decide))]

theorem computeFermat_two (pts : Fin 2 → Fin 3 → ℝ) (p : ℝ) (k : ℕ) (hk : 1 ≤ k) :
    computeFermatDistance pts p k 0 1
      = ENNReal.ofReal (euclidMatrix pts 0 1 ^ p) := by
  unfold computeFermatDistance
  rw [spDist_two _ (fermatWeight_self _ p k 0), fermatWeight_two _ p k hk]

theorem ofReal_base_le_chainCost {n : ℕ} (E : Fin n → Fin n → ℝ)
    (W : Fin n → Fin n → ℝ≥0∞)
    (hEW : ∀ a b, ENNReal.ofReal (E a b) ≤ W a b)
    (h0 : ∀ a, E a a = 0) (hnn : ∀ a b, 0 ≤ E a b)
    (htri : ∀ a b c, E a c ≤ E a b + E b c) :
    ∀ (vs : List (Fin n)) (i : Fin n),
      ENNReal.ofReal (E i (walkEnd i vs)) ≤ chainCost W i vs := by
  intro vs
  induction vs with
  | nil =>
    intro i
    rw [walkEnd_nil, h0 i]
    simp
  | cons v ws ih =>
    intro i
    rw [walkEnd_cons]
    calc ENNReal.ofReal (E i (walkEnd v ws))
        ≤ ENNReal.ofReal (E i v + E v (walkEnd v ws)) :=
          ENNReal.ofReal_le_ofReal (htri i v _)
    _ = ENNReal.ofReal (E i v) + ENNReal.ofReal (E v (walkEnd v ws)) :=
          ENNReal.ofReal_add (hnn i v) (hnn v _)
    _ ≤ W i v + chainCost W v ws := add_le_add (hEW i v) (ih v)

theorem reachable_of_chainCost_ne_top {n : ℕ} (E : Fin n → Fin n → ℝ) (p : ℝ)
    (k : ℕ) :
    ∀ (vs : List (Fin n)) (i : Fin n),
      chainCost (fermatWeight E p k) i vs ≠ ⊤ →
      Relation.ReflTransGen (adjacent E k) i (walkEnd i vs) := by
  intro vs
  induction vs with
  | nil =>
    intro i _
    rw [walkEnd_nil]
  | cons v ws ih =>
    intro i h
    rw [walkEnd_cons]
    have hsplit : fermatWeight E p k i v ≠ ⊤
        ∧ chainCost (fermatWeight E p k) v ws ≠ ⊤ := by
      rw [← ENNReal.add_ne_top]
      exact h
    have hadj : adjacent E k i v := by
      by_contra hna
      apply hsplit.1
      unfold fermatWeight
      rw [if_neg hna]
    exact Relation.ReflTransGen.head hadj (ih v hsplit.2)

/- ================= Concrete distance values ================= -/

theorem euclidDist_axisPt (a b : ℝ) : euclidDist (axisPt a) (axisPt b) = |a - b| := by
  unfold euclidDist sqDist axisPt
  rw [Fin.sum_univ_three]
  norm_num
  exact Real.sqrt_sq_eq_abs _

theorem euclidMatrix_cloudHalf : euclidMatrix cloudHalf 0 1 = 1 / 2 := by
  unfold euclidMatrix cloudHalf
  rw [if_pos rfl, if_neg (by decide : ¬ (1 : Fin 2) = 0), euclidDist_axisPt,
    abs_sub_comm, sub_zero, abs_of_nonneg (by norm_num)]

theorem euclidMatrix_cloudB : euclidMatrix cloudB 0 1 = 3 := by
  unfold euclidMatrix cloudB
  rw [if_pos rfl, if_neg (by decide : ¬ (1 : Fin 2) = 0), euclidDist_axisPt,
    abs_sub_comm, sub_zero, abs_of_nonneg (by norm_num)]

theorem fin_two_pairs (i j : Fin 2) (hij : i ≠ j) :
    (i = 0 ∧ j = 1) ∨ (i = 1 ∧ j = 0) := by
  have hi := i.isLt
  have hj := j.isLt
  have hv : i.val ≠ j.val := fun h => hij (Fin.ext h)
  have hsplit : (i.val = 0 ∧ j.val = 1) ∨ (i.val = 1 ∧ j.val = 0) := by omega
  rcases hsplit with ⟨h1, h2⟩ | ⟨h1, h2⟩
  · exact Or.inl ⟨Fin.ext h1, Fin.ext h2⟩
  · exact Or.inr ⟨Fin.ext h1, Fin.ext h2⟩

theorem cloudB_separated (i j : Fin 2) (hij : i ≠ j) :
    1 ≤ euclidMatrix cloudB i j := by
  rcases fin_two_pairs i j hij with ⟨hi, hj⟩ | ⟨hi, hj⟩
  · subst hi
    subst hj
    rw [euclidMatrix_cloudB]
    norm_num
  · subst hi
    subst hj
    rw [euclidMatrix_symm, euclidMatrix_cloudB]
    norm_num

/- ================= Claim theorems: the Fermat estimator ================= -/

/-- C1: for every point cloud, every deformation exponent `p` (in particular
every valid `p > 1`) and every neighbor count `k`, the matrix returned by
`compute_fermat_distance` is symmetric, has zero diagonal, and satisfies the
triangle inequality for every triple of indices. -/
theorem fermat_matrix_is_metric {n : ℕ} (pts : Fin n → Fin 3 → ℝ) (p : ℝ) (k : ℕ) :
    (∀ i j, computeFermatDistance pts p k i j = computeFermatDistance pts p k j i) ∧
    (∀ i, computeFermatDistance pts p k i i = 0) ∧
    (∀ i l j, computeFermatDistance pts p k i j
      ≤ computeFermatDistance pts p k i l + computeFermatDistance pts p k l j) := by
  refine ⟨?_, ?_, ?_⟩
  · intro i j
    exact spDist_symm _ (fermatWeight_symm _ (euclidMatrix_symm pts) p k) i j
  · intro i
    exact spDist_self _ i
  · intro i l j
    exact spDist_triangle _ i l j

/-- C2: for every point cloud of `n` points, `compute_fermat_distance` with
deformation exponent `p = 1` and unrestricted neighbor count `k = n - 1`
returns, entry by entry, exactly the pairwise Euclidean distance matrix of
the same point cloud (the real-number model of "equal within floating-point
tolerance"). -/
theorem fermat_p_one_unrestricted_eq_euclid {n : ℕ} (pts : Fin n → Fin 3 → ℝ)
    (i j : Fin n) :
    computeFermatDistance pts 1 (n - 1) i j
      = ENNReal.ofReal (euclidMatrix pts i j) := by
  rcases eq_or_ne i j with rfl | hij
  · unfold computeFermatDistance
    rw [spDist_self, euclidMatrix_self]
    simp
  · refine le_antisymm ?_ ?_
    · have hend : walkEnd i [j] = j := rfl
      have h := spDist_le_chainCost (fermatWeight (euclidMatrix pts) 1 (n - 1))
        i j [j] hend
      have hW : fermatWeight (euclidMatrix pts) 1 (n - 1) i j
          = ENNReal.ofReal (euclidMatrix pts i j) := by
        unfold fermatWeight
        rw [if_pos (adjacent_unrestricted _ i j hij), Real.rpow_one]
      calc computeFermatDistance pts 1 (n - 1) i j
          ≤ chainCost (fermatWeight (euclidMatrix pts) 1 (n - 1)) i [j] := h
      _ = fermatWeight (euclidMatrix pts) 1 (n - 1) i j + 0 := rfl
      _ = ENNReal.ofReal (euclidMatrix pts i j) := by rw [add_zero, hW]
    · refine le_spDist _ i j _ ?_
      intro vs hend
      have hEW : ∀ a b, ENNReal.ofReal (euclidMatrix pts a b)
          ≤ fermatWeight (euclidMatrix pts) 1 (n - 1) a b := by
        intro a b
        unfold fermatWeight
        split
        · rw [Real.rpow_one]
        · exact le_top
      have h := ofReal_base_le_chainCost (euclidMatrix pts) _ hEW
        (euclidMatrix_self pts) (fun a b => euclidDist_nonneg _ _)
        (euclidMatrix_triangle pts) vs i
      rwa [hend] at h

/-- C3: for every point cloud and every neighbor count `k` (in particular
every restricted one), `compute_fermat_distance` with deformation exponent
`p = 1` returns exactly the all-pairs shortest-path (geodesic) distance
matrix of the k-nearest-neighbor graph with Euclidean edge weights. -/
theorem fermat_p_one_eq_knn_geodesic {n : ℕ} (pts : Fin n → Fin 3 → ℝ) (k : ℕ) :
    computeFermatDistance pts 1 k = knnGeodesicMatrix pts k := by
  unfold computeFermatDistance knnGeodesicMatrix fermatWeight
  simp only [Real.rpow_one]

/-- C4 (amended): the Fermat-distance estimator performs no validation of the
deformation exponent, so a call with `p = 1` (hence `p ≤ 1`) does not fail
with an "infeasible parameter" error: it succeeds and returns, entry by
entry, the k-nearest-neighbor graph geodesic distance matrix — exactly what
the notebook's own `p = 1` cell relies on. -/
theorem fermat_p_le_one_no_failure {n : ℕ} (pts : Fin n → Fin 3 → ℝ) (k : ℕ)
    (i j : Fin n) :
    computeFermatDistance pts 1 k i j = knnGeodesicMatrix pts k i j := by
  classical
  have hw : fermatWeight (euclidMatrix pts) 1 k
      = fun a b => if adjacent (euclidMatrix pts) k a b
        then ENNReal.ofReal (euclidMatrix pts a b) else ⊤ := by
    funext a b
    unfold fermatWeight
    rw [Real.rpow_one]
  unfold computeFermatDistance knnGeodesicMatrix
  rw [hw]

/-- C4 (counterexample): calling the estimator at `p = 1 ≤ 1` on a concrete
two-point cloud does not fail: it returns the finite distance `3` (the
Euclidean/geodesic value), not an error and not the infinite sentinel. -/
theorem fermat_p_one_succeeds_concrete :
    computeFermatDistance cloudB 1 1 0 1 = ENNReal.ofReal 3
      ∧ ENNReal.ofReal (3 : ℝ) ≠ (⊤ : ℝ≥0∞) := by
  constructor
  · rw [computeFermat_two cloudB 1 1 le_rfl, euclidMatrix_cloudB, Real.rpow_one]
  · exact ENNReal.ofReal_ne_top

/-- C6 (counterexample): with the same neighbor count `k = 1` and the same
(single-edge) hop structure, increasing the deformation exponent from
`p₁ = 2` to `p₂ = 3` (both `> 1`) strictly DEcreases the off-diagonal entry
of the Fermat matrix on a two-point cloud at Euclidean distance `1/2`,
because `(1/2)^3 < (1/2)^2`. -/
theorem fermat_larger_p_smaller_entry :
    computeFermatDistance cloudHalf 3 1 0 1
      < computeFermatDistance cloudHalf 2 1 0 1 := by
  rw [computeFermat_two cloudHalf 3 1 le_rfl, computeFermat_two cloudHalf 2 1 le_rfl,
    euclidMatrix_cloudHalf]
  have h3 : ((1 : ℝ) / 2) ^ (3 : ℝ) = 1 / 8 := by
    rw [show (3 : ℝ) = ((3 : ℕ) : ℝ) by norm_num, Real.rpow_natCast]
    norm_num
  have h2 : ((1 : ℝ) / 2) ^ (2 : ℝ) = 1 / 4 := by
    rw [show (2 : ℝ) = ((2 : ℕ) : ℝ) by norm_num, Real.rpow_natCast]
    norm_num
  rw [h3, h2, ENNReal.ofReal_lt_ofReal_iff (by norm_num)]
  norm_num

/-- C6 (amended): increasing `p` while holding `k` fixed never decreases any
entry of the Fermat distance matrix, provided every pairwise distance of the
cloud is at least `1` (edge weights `E^p` are monotone in `p` only for
`E ≥ 1`; the counterexample above shows the proviso is necessary). -/
theorem fermat_p_monotone_of_separated {n : ℕ} (pts : Fin n → Fin 3 → ℝ)
    (p₁ p₂ : ℝ) (k : ℕ) (hp₁ : 1 < p₁) (hp₁₂ : p₁ < p₂)
    (hsep : ∀ i j, i ≠ j → 1 ≤ euclidMatrix pts i j) (i j : Fin n) :
    computeFermatDistance pts p₁ k i j ≤ computeFermatDistance pts p₂ k i j := by
  unfold computeFermatDistance
  refine spDist_mono _ _ ?_ i j
  intro a b
  unfold fermatWeight
  rcases eq_or_ne a b with rfl | hab
  · rw [if_neg (adjacent_irrefl _ k a), if_neg (adjacent_irrefl _ k a)]
  · split
    · exact ENNReal.ofReal_le_ofReal
        (Real.rpow_le_rpow_of_exponent_le (hsep a b hab) hp₁₂.le)
    · exact le_rfl

/-- Witness for the amended C6, at the concrete two-point cloud whose
pairwise distance is `3 ≥ 1`, with `1 < 2 < 3` and `k = 1`. -/
theorem fermat_p_monotone_witness :
    (1 : ℝ) < 2 ∧ (2 : ℝ) < 3
      ∧ (∀ i j : Fin 2, i ≠ j → 1 ≤ euclidMatrix cloudB i j)
      ∧ ∀ i j : Fin 2, computeFermatDistance cloudB 2 1 i j
          ≤ computeFermatDistance cloudB 3 1 i j :=
  ⟨by norm_num, by norm_num, cloudB_separated,
    fun i j => fermat_p_monotone_of_separated cloudB 2 3 1 (by norm_num)
      (by norm_num) cloudB_separated i j⟩

/-- C7: when a pair of points lies in different connected components of the
restricted-k neighbor graph, `compute_fermat_distance` does not fail — the
model is a total function — and the corresponding matrix entry is the
"unreachable" sentinel `⊤` (infinity), left for the caller to interpret. -/
theorem fermat_disconnected_sentinel {n : ℕ} (pts : Fin n → Fin 3 → ℝ) (p : ℝ)
    (k : ℕ) (i j : Fin n) (h : ¬ reachable (euclidMatrix pts) k i j) :
    computeFermatDistance pts p k i j = ⊤ := by
  unfold computeFermatDistance
  show (⨅ vs : {l : List (Fin n) // walkEnd i l = j},
    chainCost (fermatWeight (euclidMatrix pts) p k) i vs.1) = ⊤
  refine iInf_eq_top.mpr ?_
  intro v
  by_contra hne
  apply h
  have hr := reachable_of_chainCost_ne_top (euclidMatrix pts) p k v.1 i hne
  rw [v.2] at hr
  exact hr

theorem not_isKNearest_of_closer {n : ℕ} (E : Fin n → Fin n → ℝ) (a b w : Fin n)
    (hw : w ≠ a) (hlt : E a w < E a b) : ¬ isKNearest E 1 a b := by
  classical
  rintro ⟨-, hcount⟩
  have hmem : w ∈ Finset.univ.filter fun l => l ≠ a ∧ E a l < E a b := by
    rw [Finset.mem_filter]
    exact ⟨Finset.mem_univ w, hw, hlt⟩
  have hpos : 0 < nearerCount E a b := by
    unfold nearerCount
    exact Finset.card_pos.mpr ⟨w, hmem⟩
  omega

theorem cloudDisc_E_val (a b : Fin 4) :
    euclidMatrix cloudDisc a b
      = |(![0, 1, 10, 11] : Fin 4 → ℝ) a - (![0, 1, 10, 11] : Fin 4 → ℝ) b| := by
  unfold euclidMatrix cloudDisc
  rw [euclidDist_axisPt]

theorem cloudDisc_adj_side (a b : Fin 4)
    (hadj : adjacent (euclidMatrix cloudDisc) 1 a b) (ha : a.val < 2) :
    b.val < 2 := by
  by_contra hb
  push_neg at hb
  have ha4 := a.isLt
  have hb4 := b.isLt
  have hac : a = 0 ∨ a = 1 := by
    rcases (show a.val = 0 ∨ a.val = 1 by omega) with h | h
    · exact Or.inl (Fin.ext h)
    · exact Or.inr (Fin.ext h)
  have hbc : b = 2 ∨ b = 3 := by
    rcases (show b.val = 2 ∨ b.val = 3 by omega) with h | h
    · exact Or.inl (Fin.ext h)
    · exact Or.inr (Fin.ext h)
  rcases hac with rfl | rfl
  · rcases hbc with rfl | rfl
    · rcases hadj with h | h
      · exact not_isKNearest_of_closer _ 0 2 1 (by decide)
          (by rw [cloudDisc_E_val, cloudDisc_E_val]; norm_num) h
      · exact not_isKNearest_of_closer _ 2 0 3 (by decide)
          (by rw [cloudDisc_E_val, cloudDisc_E_val]; norm_num) h
    · rcases hadj with h | h
      · exact not_isKNearest_of_closer _ 0 3 1 (by decide)
          (by rw [cloudDisc_E_val, cloudDisc_E_val]; norm_num) h
      · exact not_isKNearest_of_closer _ 3 0 2 (by decide)
          (by rw [cloudDisc_E_val, cloudDisc_E_val]; norm_num) h
  · rcases hbc with rfl | rfl
    · rcases hadj with h | h
      · exact not_isKNearest_of_closer _ 1 2 0 (by decide)
          (by rw [cloudDisc_E_val, cloudDisc_E_val]; norm_num) h
      · exact not_isKNearest_of_closer _ 2 1 3 (by decide)
          (by rw [cloudDisc_E_val, cloudDisc_E_val]; norm_num) h
    · rcases hadj with h | h
      · exact not_isKNearest_of_closer _ 1 3 0 (by decide)
          (by rw [cloudDisc_E_val, cloudDisc_E_val]; norm_num) h
      · exact not_isKNearest_of_closer _ 3 1 2 (by decide)
          (by rw [cloudDisc_E_val, cloudDisc_E_val]; norm_num) h

theorem cloudDisc_not_reachable : ¬ reachable (euclidMatrix cloudDisc) 1 0 2 := by
  intro h
  have inv : ∀ x : Fin 4,
      Relation.ReflTransGen (adjacent (euclidMatrix cloudDisc) 1) 0 x → x.val < 2 := by
    intro x hx
    induction hx with
    | refl => norm_num
    | tail hab hbc ih => exact cloudDisc_adj_side _ _ hbc ih
  exact absurd (inv 2 h) (by decide)

/-- Witness for C7: on the concrete four-point cloud whose `k = 1` graph has
the two components `{0,1}` and `{2,3}`, the estimator run at the notebook's
`p = 7` returns the infinite sentinel for the cross-component pair `(0,2)`. -/
theorem fermat_disconnected_sentinel_witness :
    ¬ reachable (euclidMatrix cloudDisc) 1 0 2
      ∧ computeFermatDistance cloudDisc 7 1 0 2 = ⊤ :=
  ⟨cloudDisc_not_reachable,
    fermat_disconnected_sentinel cloudDisc 7 1 0 2 cloudDisc_not_reachable⟩

/- ================= Sampler lemmas ================= -/

theorem generate_noise_normal (s : RandomState) (var : ℝ) (m : ℕ) :
    generate_noise s "normal" var m
      = some (fun a : Fin m => var * s.normalStream (s.pos + (a : ℕ)), advance s m) := by
  unfold generate_noise
  rw [if_pos rfl]

theorem generate_noise_uniform (s : RandomState) (var : ℝ) (m : ℕ) :
    generate_noise s "uniform" var m
      = some (fun a : Fin m => var * s.uniformStream (s.pos + (a : ℕ)), advance s m) := by
  unfold generate_noise
  rw [if_neg (by decide), if_pos rfl]

theorem generate_noise_other (s : RandomState) (t : String) (var : ℝ) (m : ℕ)
    (h1 : t ≠ "normal") (h2 : t ≠ "uniform") :
    generate_noise s t var m = none := by
  unfold generate_noise
  rw [if_neg h1, if_neg h2]

theorem trefoil_normal (s : RandomState) (n : ℕ) (var : ℝ) :
    trefoil s n "normal" var = some
      (fun i => ![trefoilX (phi n i) + var * s.normalStream (s.pos + i),
        trefoilY (phi n i) + var * s.normalStream (s.pos + n + i),
        trefoilZ (phi n i) + var * s.normalStream (s.pos + n + n + i)],
        advance (advance (advance s n) n) n) := by
  unfold trefoil
  simp only [generate_noise_normal, advance]

theorem trefoil_uniform (s : RandomState) (n : ℕ) (var : ℝ) :
    trefoil s n "uniform" var = some
      (fun i => ![trefoilX (phi n i) + var * s.uniformStream (s.pos + i),
        trefoilY (phi n i) + var * s.uniformStream (s.pos + n + i),
        trefoilZ (phi n i) + var * s.uniformStream (s.pos + n + n + i)],
        advance (advance (advance s n) n) n) := by
  unfold trefoil
  simp only [generate_noise_uniform, advance]

theorem trefoil_other (s : RandomState) (n : ℕ) (t : String) (var : ℝ)
    (h1 : t ≠ "normal") (h2 : t ≠ "uniform") :
    trefoil s n t var = none := by
  unfold trefoil
  rw [generate_noise_other s t var n h1 h2]

/- ================= Claim theorems: the sampler ================= -/

/-- C5 (on the code as written): `generate_noise` yields no result exactly for
noise kinds other than `"normal"` and `"uniform"`, and it raises no
"unsupported noise kind" error when that happens — the Python function just
falls through both `if`s and implicitly returns `None`, so the failure only
surfaces later as a `TypeError` in the caller's additions. -/
theorem generate_noise_none_iff (s : RandomState) (t : String) (var : ℝ)
    (m : ℕ) :
    generate_noise s t var m = none ↔ ¬(t = "normal" ∨ t = "uniform") := by
  by_cases h1 : t = "normal"
  · subst h1
    rw [generate_noise_normal]
    simp
  · by_cases h2 : t = "uniform"
    · subst h2
      rw [generate_noise_uniform]
      simp
    · rw [generate_noise_other s t var m h1 h2]
      simp [h1, h2]

/-- C8: for every sample size `n`, valid noise kind and scale `var`, `trefoil`
returns exactly `n` points of `ℝ³` (the `n × 3` array is the result type),
where point `i` is the trefoil parametrization
`(sin φ + 2 sin 2φ, cos φ − 2 cos 2φ, −sin 3φ)` at `φ = phi i`, each of the
three coordinates perturbed by its own draw of the requested noise stream —
the three draws sit at the pairwise distinct stream positions `pos + i`,
`pos + n + i` and `pos + 2n + i`. -/
theorem trefoil_returns_parametrized_points (s : RandomState) (n : ℕ)
    (t : String) (var : ℝ) (ht : t = "normal" ∨ t = "uniform") :
    ∃ (data : Fin n → Fin 3 → ℝ) (s3 : RandomState),
      trefoil s n t var = some (data, s3)
      ∧ ∀ i : Fin n,
          data i 0 = Real.sin (phi n i) + 2 * Real.sin (2 * phi n i)
              + var * streamOf s t (s.pos + (i : ℕ))
          ∧ data i 1 = Real.cos (phi n i) - 2 * Real.cos (2 * phi n i)
              + var * streamOf s t (s.pos + n + (i : ℕ))
          ∧ data i 2 = -Real.sin (3 * phi n i)
              + var * streamOf s t (s.pos + n + n + (i : ℕ)) := by
  rcases ht with rfl | rfl
  · refine ⟨_, _, trefoil_normal s n var, ?_⟩
    intro i
    have hstream : streamOf s "normal" = s.normalStream := by
      unfold streamOf
      rw [if_pos rfl]
    refine ⟨?_, ?_, ?_⟩
    · show trefoilX (phi n i) + var * s.normalStream (s.pos + (i : ℕ)) = _
      rw [hstream]
      unfold trefoilX
      ring
    · show trefoilY (phi n i) + var * s.normalStream (s.pos + n + (i : ℕ)) = _
      rw [hstream]
      unfold trefoilY
      ring
    · show trefoilZ (phi n i) + var * s.normalStream (s.pos + n + n + (i : ℕ)) = _
      rw [hstream]
      unfold trefoilZ
      ring
  · refine ⟨_, _, trefoil_uniform s n var, ?_⟩
    intro i
    have hstream : streamOf s "uniform" = s.uniformStream := by
      unfold streamOf
      rw [if_neg (by decide)]
    refine ⟨?_, ?_, ?_⟩
    · show trefoilX (phi n i) + var * s.uniformStream (s.pos + (i : ℕ)) = _
      rw [hstream]
      unfold trefoilX
      ring
    · show trefoilY (phi n i) + var * s.uniformStream (s.pos + n + (i : ℕ)) = _
      rw [hstream]
      unfold trefoilY
      ring
    · show trefoilZ (phi n i) + var * s.uniformStream (s.pos + n + n + (i : ℕ)) = _
      rw [hstream]
      unfold trefoilZ
      ring

/-- Witness for C8: the theorem applied to a concrete random state, sample
size `2`, kind `"normal"` and scale `1`. -/
theorem trefoil_returns_parametrized_points_witness :
    (("normal" : String) = "normal" ∨ ("normal" : String) = "uniform")
    ∧ ∃ (data : Fin 2 → Fin 3 → ℝ) (s3 : RandomState),
        trefoil ⟨fun _ => 0, fun _ => 0, 0⟩ 2 "normal" 1 = some (data, s3)
        ∧ ∀ i : Fin 2,
            data i 0 = Real.sin (phi 2 i) + 2 * Real.sin (2 * phi 2 i)
                + 1 * streamOf ⟨fun _ => 0, fun _ => 0, 0⟩ "normal"
                    ((⟨fun _ => 0, fun _ => 0, 0⟩ : RandomState).pos + (i : ℕ))
            ∧ data i 1 = Real.cos (phi 2 i) - 2 * Real.cos (2 * phi 2 i)
                + 1 * streamOf ⟨fun _ => 0, fun _ => 0, 0⟩ "normal"
                    ((⟨fun _ => 0, fun _ => 0, 0⟩ : RandomState).pos + 2 + (i : ℕ))
            ∧ data i 2 = -Real.sin (3 * phi 2 i)
                + 1 * streamOf ⟨fun _ => 0, fun _ => 0, 0⟩ "normal"
                    ((⟨fun _ => 0, fun _ => 0, 0⟩ : RandomState).pos + 2 + 2 + (i : ℕ)) :=
  ⟨Or.inl rfl,
    trefoil_returns_parametrized_points ⟨fun _ => 0, fun _ => 0, 0⟩ 2 "normal" 1
      (Or.inl rfl)⟩

/-- C9: (determinism) the returned point cloud depends only on the stream
values in the window the call actually reads — two random states with the
same position whose streams agree on the `3n` consumed draws (as two runs
from the same fixed seed do) produce identical point clouds; (freshness)
every successful call advances the stream position by exactly `3n`, so
without re-seeding the next call reads a disjoint, fresh block of draws. -/
theorem trefoil_deterministic_and_fresh (s₁ s₂ : RandomState) (n : ℕ)
    (t : String) (var : ℝ) (hpos : s₁.pos = s₂.pos)
    (hN : ∀ a, a < 3 * n →
      s₁.normalStream (s₁.pos + a) = s₂.normalStream (s₂.pos + a))
    (hU : ∀ a, a < 3 * n →
      s₁.uniformStream (s₁.pos + a) = s₂.uniformStream (s₂.pos + a)) :
    (trefoil s₁ n t var).map Prod.fst = (trefoil s₂ n t var).map Prod.fst
    ∧ ∀ r, trefoil s₁ n t var = some r → r.2.pos = s₁.pos + 3 * n := by
  by_cases h1 : t = "normal"
  · subst h1
    rw [trefoil_normal, trefoil_normal]
    constructor
    · rw [Option.map_some', Option.map_some']
      refine congrArg some ?_
      show (fun i : Fin n => ![_, _, _]) = fun i : Fin n => ![_, _, _]
      funext i
      have hi := i.isLt
      have e0 : s₁.normalStream (s₁.pos + (i : ℕ))
          = s₂.normalStream (s₂.pos + (i : ℕ)) := hN i (by omega)
      have e1 : s₁.normalStream (s₁.pos + n + (i : ℕ))
          = s₂.normalStream (s₂.pos + n + (i : ℕ)) := by
        have h := hN (n + (i : ℕ)) (by omega)
        rwa [← add_assoc, ← add_assoc] at h
      have e2 : s₁.normalStream (s₁.pos + n + n + (i : ℕ))
          = s₂.normalStream (s₂.pos + n + n + (i : ℕ)) := by
        have h := hN (n + n + (i : ℕ)) (by omega)
        rwa [← add_assoc, ← add_assoc, ← add_assoc, ← add_assoc] at h
      rw [e0, e1, e2]
    · intro r hr
      rw [← Option.some.inj hr]
      show (advance (advance (advance s₁ n) n) n).pos = s₁.pos + 3 * n
      simp only [advance]
      omega
  · by_cases h2 : t = "uniform"
    · subst h2
      rw [trefoil_uniform, trefoil_uniform]
      constructor
      · rw [Option.map_some', Option.map_some']
        refine congrArg some ?_
        show (fun i : Fin n => ![_, _, _]) = fun i : Fin n => ![_, _, _]
        funext i
        have hi := i.isLt
        have e0 : s₁.uniformStream (s₁.pos + (i : ℕ))
            = s₂.uniformStream (s₂.pos + (i : ℕ)) := hU i (by omega)
        have e1 : s₁.uniformStream (s₁.pos + n + (i : ℕ))
            = s₂.uniformStream (s₂.pos + n + (i : ℕ)) := by
          have h := hU (n + (i : ℕ)) (by omega)
          rwa [← add_assoc, ← add_assoc] at h
        have e2 : s₁.uniformStream (s₁.pos + n + n + (i : ℕ))
            = s₂.uniformStream (s₂.pos + n + n + (i : ℕ)) := by
          have h := hU (n + n + (i : ℕ)) (by omega)
          rwa [← add_assoc, ← add_assoc, ← add_assoc, ← add_assoc] at h
        rw [e0, e1, e2]
      · intro r hr
        rw [← Option.some.inj hr]
        show (advance (advance (advance s₁ n) n) n).pos = s₁.pos + 3 * n
        simp only [advance]
        omega
    · rw [trefoil_other s₁ n t var h1 h2, trefoil_other s₂ n t var h1 h2]
      refine ⟨rfl, ?_⟩
      intro r hr
      exact absurd hr (by simp)

/-- Witness for C9: the theorem applied to a concrete random state (twice
the same state, as two runs from the same seed), `n = 2`, kind `"normal"`. -/
theorem trefoil_deterministic_and_fresh_witness :
    (trefoil ⟨fun _ => 0, fun _ => 0, 0⟩ 2 "normal" 1).map Prod.fst
      = (trefoil ⟨fun _ => 0, fun _ => 0, 0⟩ 2 "normal" 1).map Prod.fst
    ∧ ∀ r, trefoil ⟨fun _ => 0, fun _ => 0, 0⟩ 2 "normal" 1 = some r
        → r.2.pos = (⟨fun _ => 0, fun _ => 0, 0⟩ : RandomState).pos + 3 * 2 :=
  trefoil_deterministic_and_fresh ⟨fun _ => 0, fun _ => 0, 0⟩
    ⟨fun _ => 0, fun _ => 0, 0⟩ 2 "normal" 1 rfl (fun _ _ => rfl) (fun _ _ => rfl)

/-- C10: for every sample size `n ≥ 2` and noise scale `0`, the grid
`np.linspace(0, 2π, n)` contains both endpoints of the closed trefoil curve,
so the first and last points returned by `trefoil` coincide: the cloud has a
duplicated point and its Euclidean distance matrix has a zero off-diagonal
entry. -/
theorem trefoil_endpoints_duplicated (s : RandomState) (n : ℕ) (t : String)
    (hn : 2 ≤ n) (ht : t = "normal" ∨ t = "uniform") :
    ∃ (data : Fin n → Fin 3 → ℝ) (s3 : RandomState),
      trefoil s n t 0 = some (data, s3)
      ∧ data ⟨0, by omega⟩ = data ⟨n - 1, by omega⟩
      ∧ (⟨0, by omega⟩ : Fin n) ≠ ⟨n - 1, by omega⟩
      ∧ euclidMatrix data ⟨0, by omega⟩ ⟨n - 1, by omega⟩ = 0 := by
  have hne : (⟨0, by omega⟩ : Fin n) ≠ ⟨n - 1, by omega⟩ := by
    intro h
    have hv : (0 : ℕ) = n - 1 := congrArg Fin.val h
    omega
  have hphi0 : phi n ⟨0, by omega⟩ = 0 := by
    unfold phi
    rw [if_neg (by omega)]
    simp
  have hcast : ((n - 1 : ℕ) : ℝ) = (n : ℝ) - 1 := by
    rw [Nat.cast_sub (by omega : 1 ≤ n), Nat.cast_one]
  have hnR : ((n : ℝ) - 1) ≠ 0 := by
    have h2 : (2 : ℝ) ≤ (n : ℝ) := by exact_mod_cast hn
    linarith
  have hphiL : phi n ⟨n - 1, by omega⟩ = 2 * Real.pi := by
    unfold phi
    rw [if_neg (by omega)]
    show 2 * Real.pi * ((n - 1 : ℕ) : ℝ) / ((n : ℝ) - 1) = 2 * Real.pi
    rw [hcast, mul_div_assoc, div_self hnR, mul_one]
  have hsin4 : Real.sin (2 * (2 * Real.pi)) = 0 := by
    rw [show 2 * (2 * Real.pi) = 2 * Real.pi + 2 * Real.pi by ring,
      Real.sin_add_two_pi, Real.sin_two_pi]
  have hcos4 : Real.cos (2 * (2 * Real.pi)) = 1 := by
    rw [show 2 * (2 * Real.pi) = 2 * Real.pi + 2 * Real.pi by ring,
      Real.cos_add_two_pi, Real.cos_two_pi]
  have hsin6 : Real.sin (3 * (2 * Real.pi)) = 0 := by
    rw [show 3 * (2 * Real.pi) = 2 * Real.pi + 2 * Real.pi + 2 * Real.pi by ring,
      Real.sin_add_two_pi, Real.sin_add_two_pi, Real.sin_two_pi]
  have hX : trefoilX (2 * Real.pi) = trefoilX 0 := by
    unfold trefoilX
    rw [Real.sin_two_pi, hsin4]
    norm_num
  have hY : trefoilY (2 * Real.pi) = trefoilY 0 := by
    unfold trefoilY
    rw [Real.cos_two_pi, hcos4]
    norm_num
  have hZ : trefoilZ (2 * Real.pi) = trefoilZ 0 := by
    unfold trefoilZ
    rw [hsin6]
    norm_num
  rcases ht with rfl | rfl
  · refine ⟨_, _, trefoil_normal s n 0, ?_, hne, ?_⟩
    · simp only [zero_mul, add_zero, hphi0, hphiL, hX, hY, hZ]
    · unfold euclidMatrix
      simp only [zero_mul, add_zero, hphi0, hphiL, hX, hY, hZ]
      exact euclidDist_self _
  · refine ⟨_, _, trefoil_uniform s n 0, ?_, hne, ?_⟩
    · simp only [zero_mul, add_zero, hphi0, hphiL, hX, hY, hZ]
    · unfold euclidMatrix
      simp only [zero_mul, add_zero, hphi0, hphiL, hX, hY, hZ]
      exact euclidDist_self _

/-- Witness for C10: the theorem applied at sample size `2`, noise kind
`"normal"` and a concrete random state. -/
theorem trefoil_endpoints_duplicated_witness :
    2 ≤ 2 ∧ (("normal" : String) = "normal" ∨ ("normal" : String) = "uniform")
    ∧ ∃ (data : Fin 2 → Fin 3 → ℝ) (s3 : RandomState),
        trefoil ⟨fun _ => 0, fun _ => 0, 0⟩ 2 "normal" 0 = some (data, s3)
        ∧ data ⟨0, by omega⟩ = data ⟨2 - 1, by omega⟩
        ∧ (⟨0, by omega⟩ : Fin 2) ≠ ⟨2 - 1, by omega⟩
        ∧ euclidMatrix data ⟨0, by omega⟩ ⟨2 - 1, by omega⟩ = 0 :=
  ⟨by omega, Or.inl rfl,
    trefoil_endpoints_duplicated ⟨fun _ => 0, fun _ => 0, 0⟩ 2 "normal"
      (by omega) (Or.inl rfl)⟩
